import Mathlib

/-!
# CHORD-IA — verification of the client-side layer

A shallow embedding of the CHORD-IA single-page application's pure core:
the tolerant JSON extraction (`extractJSON` in `src/services/geminiService.ts`),
the retry loop (`generateWithRetry`), the upload size gate
(`handleFileUpload` in `src/components/AudioInput.tsx`), the duration probe
(`getAudioDuration` in `src/App.tsx`), and the playback / display layer of
the `AnalysisResult` player component: `cleanStr`, `getDisplayChord`,
the per-frame `tick` synchronization callback, the active-chord lookup and
the click-track scheduler `scheduleClicks`.

Conventions of the embedding:
* JavaScript strings are `List Char` (`Str`); whitespace and lower-casing
  are modelled on the ASCII range, which covers every literal the code
  compares against.
* JavaScript numbers are `ℚ`: every operation the embedded code performs
  (comparison, addition, division by constants) is exact on the values the
  claims are about.
* `JSON.parse` is modelled by `jsonParse`, a recursive-descent parser for
  RFC-8259 JSON (objects, arrays, strings with escapes, numbers, literals)
  written with explicit fuel so that it is structurally recursive and
  evaluates inside `decide`/`rfl`.
* Loops whose termination depends on runtime values (`replace(/…/g)`
  scanning, the click scheduling `while`, the retry recursion) take an
  explicit fuel argument; the wrapper passes fuel that provably suffices
  (the scanned list's length, resp. the retry budget `MAX_RETRIES`).
-/

attribute [local semireducible] Rat.add Rat.mul Rat.inv Rat.sub Rat.ofScientific

/-- JavaScript strings, modelled as their list of characters. -/
abbrev Str := List Char

/-- Conversion from Lean string literals to the embedded string type. -/
def str2list (s : String) : Str := s.toList

/-- The characters `String.prototype.trim` removes (ASCII whitespace). -/
def isWsChar (c : Char) : Bool :=
  c = ' ' || c = '\t' || c = '\n' || c = '\r' || c = '\x0b' || c = '\x0c'

/-- Leading-whitespace removal (the left half of `trim`). -/
def trimLeft (s : Str) : Str := s.dropWhile isWsChar

/-- Trailing-whitespace removal (the right half of `trim`). -/
def trimRight (s : Str) : Str := (s.reverse.dropWhile isWsChar).reverse

/-- `String.prototype.trim`. -/
def trim (s : Str) : Str := trimRight (trimLeft s)

/-- `String.prototype.toLowerCase`, on the ASCII range. -/
def toLowerStr (s : Str) : Str := s.map Char.toLower

/-- `String.prototype.indexOf` for a single character. -/
def idxOf (c : Char) : Str → Option ℕ
  | [] => none
  | d :: rest => if d = c then some 0 else (idxOf c rest).map (· + 1)

/-- `String.prototype.lastIndexOf` for a single character. -/
def lastIdxOf (c : Char) (s : Str) : Option ℕ :=
  (idxOf c s.reverse).map (fun i => s.length - 1 - i)

/-- `String.prototype.substring` (clamps and swaps its endpoints, as JS does). -/
def jsSubstring (s : Str) (a b : ℕ) : Str :=
  (s.take (max a b)).drop (min a b)

/-- One pass of `String.prototype.replace(pat, '')` with a global literal
pattern: scan left to right, delete each non-overlapping occurrence.  The
fuel argument makes the recursion structural; `jsReplaceAll` passes the
scanned list's length, which suffices because every step consumes at least
one character. -/
def replaceAllGo (p : Str) : ℕ → Str → Str
  | 0, s => s
  | _ + 1, [] => []
  | fuel + 1, c :: rest =>
    if p.isPrefixOf (c :: rest) && !p.isEmpty then
      replaceAllGo p fuel (List.drop (p.length - 1) rest)
    else
      c :: replaceAllGo p fuel rest

/-- `String.prototype.replace(/pat/g, '')` for a literal pattern. -/
def jsReplaceAll (p s : Str) : Str := replaceAllGo p s.length s

/-- `String.prototype.includes`. -/
def containsSub (s pat : Str) : Bool :=
  pat.isPrefixOf s ||
    match s with
    | [] => false
    | _ :: rest => containsSub rest pat

/-! ## A model of `JSON.parse`

`Json` is the value space; `jsonParse` the RFC-8259 grammar (with the
`\uXXXX` escape mapped to the corresponding code point and numbers read
exactly into `ℚ`). -/

/-- Parsed JSON values. -/
inductive Json where
  | null : Json
  | bool : Bool → Json
  | num : ℚ → Json
  | str : Str → Json
  | arr : List Json → Json
  | obj : List (Str × Json) → Json

/-- JSON whitespace (RFC 8259 `ws`). -/
def isJsonWs (c : Char) : Bool := c = ' ' || c = '\t' || c = '\n' || c = '\r'

/-- Skip JSON whitespace. -/
def skipWs (s : Str) : Str := s.dropWhile isJsonWs

/-- Hexadecimal digit value, for `\uXXXX` escapes. -/
def hexVal (c : Char) : Option ℕ :=
  if '0' ≤ c ∧ c ≤ '9' then some (c.toNat - '0'.toNat)
  else if 'a' ≤ c ∧ c ≤ 'f' then some (c.toNat - 'a'.toNat + 10)
  else if 'A' ≤ c ∧ c ≤ 'F' then some (c.toNat - 'A'.toNat + 10)
  else none

/-- Body of a JSON string after the opening quote: returns the decoded
characters and the remainder after the closing quote. -/
def parseStringBody : Str → Option (Str × Str)
  | [] => none
  | '"' :: rest => some ([], rest)
  | '\\' :: 'u' :: h1 :: h2 :: h3 :: h4 :: rest =>
    match hexVal h1, hexVal h2, hexVal h3, hexVal h4, parseStringBody rest with
    | some a, some b, some c, some d, some (cs, r) =>
      some (Char.ofNat (((a * 16 + b) * 16 + c) * 16 + d) :: cs, r)
    | _, _, _, _, _ => none
  | '\\' :: e :: rest =>
    match (match e with
      | '"' => some '"'
      | '\\' => some '\\'
      | '/' => some '/'
      | 'b' => some '\x08'
      | 'f' => some '\x0c'
      | 'n' => some '\n'
      | 'r' => some '\r'
      | 't' => some '\t'
      | _ => none), parseStringBody rest with
    | some c, some (cs, r) => some (c :: cs, r)
    | _, _ => none
  | c :: rest =>
    if c.toNat < 32 then none
    else
      match parseStringBody rest with
      | some (cs, r) => some (c :: cs, r)
      | none => none

/-- Digits at the front of the input, as (digit list, rest). -/
def takeDigits (s : Str) : Str × Str :=
  (s.takeWhile Char.isDigit, s.dropWhile Char.isDigit)

/-- Numeric value of a digit list. -/
def digitsVal (ds : Str) : ℕ :=
  ds.foldl (fun acc c => acc * 10 + (c.toNat - '0'.toNat)) 0

/-- A JSON number at the front of the input (RFC 8259 `number`). -/
def parseNumber (s : Str) : Option (ℚ × Str) :=
  let (neg, s1) := match s with
    | '-' :: rest => (true, rest)
    | _ => (false, s)
  let (intDs, s2) := takeDigits s1
  if intDs.isEmpty then none
  else if intDs.head? = some '0' ∧ intDs.length > 1 then none
  else
    let (fracDs, s3) := match s2 with
      | '.' :: rest =>
        let (ds, r) := takeDigits rest
        (ds, if ds.isEmpty then s2 else r)
      | _ => ([], s2)
    if s2 ≠ s3 ∧ fracDs.isEmpty then none
    else
      let mant : ℚ := (digitsVal intDs : ℚ) + (digitsVal fracDs : ℚ) / (10 ^ fracDs.length : ℚ)
      let (expQ, s4) : ℚ × Str := match s3 with
        | 'e' :: rest => parseExpTail rest s3
        | 'E' :: rest => parseExpTail rest s3
        | _ => (1, s3)
      match expQ with
      | 0 => none
      | _ =>
        let v := mant * expQ
        some (if neg then -v else v, s4)
where
  /-- The exponent suffix: returns the scale factor `10^e` (or `0` to
  signal a malformed exponent) and the remaining input. -/
  parseExpTail (rest whole : Str) : ℚ × Str :=
    let (esign, r1) : Bool × Str := match rest with
      | '+' :: r => (false, r)
      | '-' :: r => (true, r)
      | _ => (false, rest)
    let (eds, r2) := takeDigits r1
    if eds.isEmpty then (0, whole)
    else ((if esign then (10 : ℚ)⁻¹ ^ digitsVal eds else (10 : ℚ) ^ digitsVal eds), r2)

mutual

/-- A JSON value at the front of the input. -/
def parseValue : ℕ → Str → Option (Json × Str)
  | 0, _ => none
  | fuel + 1, s =>
    match skipWs s with
    | 'n' :: 'u' :: 'l' :: 'l' :: rest => some (.null, rest)
    | 't' :: 'r' :: 'u' :: 'e' :: rest => some (.bool true, rest)
    | 'f' :: 'a' :: 'l' :: 's' :: 'e' :: rest => some (.bool false, rest)
    | '"' :: rest => (parseStringBody rest).map (fun r => (.str r.1, r.2))
    | '[' :: rest =>
      (match skipWs rest with
        | ']' :: r => some (.arr [], r)
        | r => (parseItems fuel r).map (fun p => (.arr p.1, p.2)))
    | '\x7b' :: rest =>
      (match skipWs rest with
        | '\x7d' :: r => some (.obj [], r)
        | r => (parseMembers fuel r).map (fun p => (.obj p.1, p.2)))
    | t => (parseNumber t).map (fun p => (Json.num p.1, p.2))

/-- One or more comma-separated array items, then the closing bracket. -/
def parseItems : ℕ → Str → Option (List Json × Str)
  | 0, _ => none
  | fuel + 1, s =>
    (parseValue fuel s).bind (fun p =>
      match skipWs p.2 with
      | ',' :: rest => (parseItems fuel rest).map (fun q => (p.1 :: q.1, q.2))
      | ']' :: rest => some ([p.1], rest)
      | _ => none)

/-- One or more comma-separated object members, then the closing brace. -/
def parseMembers : ℕ → Str → Option (List (Str × Json) × Str)
  | 0, _ => none
  | fuel + 1, s =>
    match skipWs s with
    | '"' :: rest =>
      (parseStringBody rest).bind (fun k =>
        match skipWs k.2 with
        | ':' :: rest2 =>
          (parseValue fuel rest2).bind (fun v =>
            match skipWs v.2 with
            | ',' :: rest3 => (parseMembers fuel rest3).map (fun q => ((k.1, v.1) :: q.1, q.2))
            | '\x7d' :: rest3 => some ([(k.1, v.1)], rest3)
            | _ => none)
        | _ => none)
    | _ => none

end

/-- `JSON.parse`: a whole JSON text, nothing but whitespace after it. -/
def jsonParse (s : Str) : Option Json :=
  (parseValue (s.length + 1) s).bind
    (fun p => if skipWs p.2 = [] then some p.1 else none)

/-! ## `src/services/geminiService.ts` — tolerant JSON extraction and retry

The embedded revision is the one at lines 10–107 of the file: `extractJSON`
trims, strips Markdown fences, isolates the text between the first `{` and
the last `}` and hands it to `JSON.parse`; `generateWithRetry` retries
transient failures with capped exponential backoff. -/

/-- The `firstBrace`/`lastBrace` isolation step of `extractJSON`: the
substring from the first `\x7b` to the last `\x7d`, or the whole text when
either brace is missing. -/
def isolateBraces (s : Str) : Str :=
  match idxOf '\x7b' s, lastIdxOf '\x7d' s with
  | some firstBrace, some lastBrace => jsSubstring s firstBrace (lastBrace + 1)
  | _, _ => s

/-- `extractJSON` (geminiService.ts:10–29): throw on empty input, trim,
delete every ```` ```json ```` and then every ```` ``` ````, isolate the
brace-delimited region, parse; a parse failure is a thrown user-facing
error. -/
def extractJSON (text : Str) : Except Str Json :=
  if text = [] then .error (str2list "Empty response from AI")
  else
    let cleanText := trim text
    let cleanText := jsReplaceAll (str2list "```") (jsReplaceAll (str2list "```json") cleanText)
    let cleanText := isolateBraces cleanText
    match jsonParse cleanText with
    | some v => .ok v
    | none => .error (str2list "Analysis failed to produce valid JSON data. Please try again.")

/-- One outcome of `ai.models.generateContent`: a response (carrying its
`.text`) or a thrown error (carrying its message). -/
inductive CallOutcome where
  | ok : Str → CallOutcome
  | err : Str → CallOutcome

/-- geminiService.ts:82. -/
def MAX_RETRIES : ℕ := 3

/-- geminiService.ts:83 (milliseconds). -/
def BASE_DELAY : ℕ := 2000

/-- The transient-failure test of geminiService.ts:97. -/
def isTransient (msg : Str) : Bool :=
  containsSub msg (str2list "503") || containsSub msg (str2list "429") ||
    containsSub msg (str2list "Busy") || containsSub msg (str2list "Overloaded")

/-- The recursion of `generateWithRetry` (geminiService.ts:87–107).  `call
retries` is the outcome of attempt number `retries`; the result pairs the
list of backoff delays actually slept (each `BASE_DELAY * 2 ^ retries`
milliseconds) with the final outcome.  `gas` is the remaining retry budget
`MAX_RETRIES - retries`, which makes the recursion structural; the guard
keeps the source's own condition `retries < MAX_RETRIES`, and the wrapper
below establishes the correspondence by starting at `(0, MAX_RETRIES)`. -/
def generateWithRetryGo (call : ℕ → CallOutcome) : ℕ → ℕ → List ℕ × Except Str Str
  | retries, 0 =>
    match call retries with
    | .ok r => ([], .ok r)
    | .err m => ([], .error m)
  | retries, gas + 1 =>
    match call retries with
    | .ok r => ([], .ok r)
    | .err m =>
      if isTransient m && decide (retries < MAX_RETRIES) then
        let waitTime := BASE_DELAY * 2 ^ retries
        let r2 := generateWithRetryGo call (retries + 1) gas
        (waitTime :: r2.1, r2.2)
      else ([], .error m)

/-- `generateWithRetry(contents, config)` with the default `retries = 0`. -/
def generateWithRetry (call : ℕ → CallOutcome) : List ℕ × Except Str Str :=
  generateWithRetryGo call 0 MAX_RETRIES

/-- The `catch` block of `analyzeAudioContent` (geminiService.ts:157–162):
two sequential message rewrites, then rethrow. -/
def rewriteAnalysisError (m : Str) : Str :=
  let m1 :=
    if containsSub m (str2list "404") then str2list "Model unavailable. Please try again later."
    else m
  if containsSub m1 (str2list "429") then str2list "Server traffic high. Please wait a moment."
  else m1

/-- `analyzeAudioContent` (geminiService.ts:111–164) reduced to its
dataflow: run the retried call, extract JSON from the response text, and
funnel any thrown error through the catch block's message rewriting. -/
def analyzeAudioContent (call : ℕ → CallOutcome) : Except Str Json :=
  match (generateWithRetry call).2 with
  | .error e => .error (rewriteAnalysisError e)
  | .ok text =>
    match extractJSON text with
    | .ok v => .ok v
    | .error e => .error (rewriteAnalysisError e)

/-- `analyzeSongFromUrl` (geminiService.ts:166–196) reduced to its
dataflow: run the retried call, extract JSON from the response text, and
wrap any thrown error's message in the catch block's "Link analysis
failed: " prefix. -/
def analyzeSongFromUrl (call : ℕ → CallOutcome) : Except Str Json :=
  match (generateWithRetry call).2 with
  | .error e => .error (str2list "Link analysis failed: " ++ e)
  | .ok text =>
    match extractJSON text with
    | .ok v => .ok v
    | .error e => .error (str2list "Link analysis failed: " ++ e)

/-! ## `src/components/AudioInput.tsx` — upload size gate -/

/-- AudioInput.tsx:10. -/
def MAX_FILE_SIZE : ℚ := 9.5 * 1024 * 1024

/-- What `handleFileUpload` does with the selected file: raise the
oversize alert and stop, or hand the file to `onAudioReady` (which starts
the analysis pipeline and hence the network call). -/
inductive UploadAction where
  | alertTooLarge : UploadAction
  | audioReady : ℕ → UploadAction
deriving DecidableEq

/-- `handleFileUpload` (AudioInput.tsx:25–36).  `files` is
`e.target.files` as the list of the selected files' sizes in bytes; with
no file selected the handler does nothing. -/
def handleFileUpload (files : List ℕ) : Option UploadAction :=
  match files with
  | [] => none
  | size :: _ =>
    if (size : ℚ) > MAX_FILE_SIZE then some .alertTooLarge
    else some (.audioReady size)

/-! ## `src/App.tsx` — duration probe -/

/-- Which media event fires for the probing `Audio` element:
`onloadedmetadata` with the decoded duration, or `onerror`. -/
inductive MetadataEvent where
  | loadedmetadata : ℚ → MetadataEvent
  | error : MetadataEvent

/-- `getAudioDuration` (App.tsx:31–43): the promise resolves with the
duration, and on a decode error resolves with `0` — it has no rejection
path, which the `Except` result type makes visible. -/
def getAudioDuration : MetadataEvent → Except Str ℚ
  | .loadedmetadata d => .ok d
  | .error => .ok 0

/-! ## `AnalysisResult` player component (src/unnamed/part_010)

The revision embedded here is part_010, the "phase-locked" player: it is
the one the specification's §4.4–§4.6 describe (per-frame sync loop,
re-anchoring click scheduler, `cleanStr`-based display simplification). -/

/-- The user-selected display detail tier. -/
inductive AnalysisLevel where
  | Basic
  | Intermediate
  | Advanced
deriving DecidableEq

/-- A chord event as produced by the analysis response (part_003 schema):
textual components may be absent (`none` models JS `null`/`undefined`),
times are in seconds. -/
structure ChordEvent where
  root : Option Str := none
  quality : Option Str := none
  extension : Option Str := none
  bass : Option Str := none
  symbol : Option Str := none
  timestamp : Str := []
  seconds : ℚ
  duration : ℚ
  confidence : ℚ := 1
deriving DecidableEq

/-- The placeholder tokens `cleanStr` filters out (part_010:13). -/
def placeholders : List Str :=
  [str2list "none", str2list "null", str2list "undefined", str2list "n/a", str2list "nan"]

/-- `cleanStr` (part_010:10–15): empty for a missing/empty value, empty
for a placeholder token (compared after trimming and lower-casing),
otherwise the trimmed string. -/
def cleanStr : Option Str → Str
  | none => []
  | some s =>
    if s = [] then []
    else if toLowerStr (trim s) ∈ placeholders then []
    else trim s

/-- The two sequential quality rewrites of part_010:24–25. -/
def normalizeQuality (q : Str) : Str :=
  let q1 := if q = str2list "minor" ∨ q = str2list "min" then str2list "m" else q
  if q1 = str2list "major" ∨ q1 = str2list "maj" then [] else q1

/-- The root component `getDisplayChord` interpolates (part_010:18). -/
def rootComponent (chord : ChordEvent) : Str := cleanStr chord.root

/-- The quality component `getDisplayChord` interpolates (part_010:19,24,25). -/
def qualityComponent (chord : ChordEvent) : Str := normalizeQuality (cleanStr chord.quality)

/-- The extension component `getDisplayChord` interpolates (part_010:20). -/
def extensionComponent (chord : ChordEvent) : Str := cleanStr chord.extension

/-- The bass component `getDisplayChord` interpolates (part_010:21). -/
def bassComponent (chord : ChordEvent) : Str := cleanStr chord.bass

/-- The fallback construction of part_010:43: root, quality and extension,
then a slash bass when the bass is present and differs from the root. -/
def advancedFallback (chord : ChordEvent) : Str :=
  rootComponent chord ++ qualityComponent chord ++ extensionComponent chord ++
    (if bassComponent chord ≠ [] ∧ bassComponent chord ≠ rootComponent chord then
      '/' :: bassComponent chord
    else [])

/-- `getDisplayChord` (part_010:17–44): Basic shows root+quality,
Intermediate adds the extension, Advanced prefers the model's full symbol
when it looks valid (non-empty, short, no literal "none") and otherwise
falls back to `advancedFallback`. -/
def getDisplayChord (chord : ChordEvent) (level : AnalysisLevel) : Str :=
  match level with
  | .Basic => rootComponent chord ++ qualityComponent chord
  | .Intermediate => rootComponent chord ++ qualityComponent chord ++ extensionComponent chord
  | .Advanced =>
    let symbol := cleanStr chord.symbol
    if symbol ≠ [] ∧ symbol.length < 12 ∧ containsSub symbol (str2list "none") = false then
      symbol
    else
      advancedFallback chord

/-- The chord "already in the simplified form produced for a level": its
textual components are the cleaned/normalized components the formatter
used, and its symbol is the display string the formatter produced. -/
def simplifiedChord (chord : ChordEvent) (level : AnalysisLevel) : ChordEvent :=
  { root := some (rootComponent chord)
    quality := some (qualityComponent chord)
    extension := some (extensionComponent chord)
    bass := some (bassComponent chord)
    symbol := some (getDisplayChord chord level)
    timestamp := chord.timestamp
    seconds := chord.seconds
    duration := chord.duration
    confidence := chord.confidence }

/-- Whether playback time `t` falls in the chord's half-open interval —
the predicate of part_010:203. -/
def chordActiveAt (c : ChordEvent) (t : ℚ) : Bool :=
  decide (t ≥ c.seconds) && decide (t < c.seconds + c.duration)

/-- The active-chord lookup `analysis.chords?.find(...)` (part_010:203,
part_009:165). -/
def activeChord (chords : List ChordEvent) (t : ℚ) : Option ChordEvent :=
  chords.find? (fun c => chordActiveAt c t)

/-- The audio element state `tick` reads. -/
structure AudioElement where
  paused : Bool
  currentTime : ℚ

/-- The per-frame `tick` of the audio sync loop (part_010:92–99): when
the element exists and is not paused, read `currentTime` once and publish
that one reading to the view state (`setCurrentTime`) and to the parent
(`onTimeUpdate`) — the returned pair is those two published values; when
paused or unmounted the frame publishes nothing and the loop stops. -/
def tick (audioRef : Option AudioElement) : Option (ℚ × ℚ) :=
  match audioRef with
  | some audio => if !audio.paused then some (audio.currentTime, audio.currentTime) else none
  | none => none

/-! ## Click scheduler (part_010:111–165) -/

/-- The audio-anchored target computed on every scheduling pass
(part_010:132–139): the `AudioContext` time of the next beat boundary that
has not yet happened, derived from the audio element's current time. -/
def anchorTarget (bpm playbackRate ctxNow currentAudioTime : ℚ) : ℚ :=
  let secondsPerBeat := 60 / bpm
  let nextBeatIndex : ℤ := ⌈currentAudioTime / secondsPerBeat⌉
  let nextBeatAudioTime := (nextBeatIndex : ℚ) * secondsPerBeat
  let timeUntilNextBeat := (nextBeatAudioTime - currentAudioTime) / playbackRate
  ctxNow + timeUntilNextBeat

/-- The scheduling `while` loop (part_010:147–162): emit a click at
`nextClick` while it is inside the lookahead window, advancing one scaled
beat each time.  Fuel makes the loop structural; every property proved
below holds for every fuel value. -/
def clickLoop (secondsPerBeatScaled bound : ℚ) : ℚ → ℕ → List ℚ × ℚ
  | nextClick, 0 => ([], nextClick)
  | nextClick, fuel + 1 =>
    if nextClick < bound then
      let r2 := clickLoop secondsPerBeatScaled bound (nextClick + secondsPerBeatScaled) fuel
      (nextClick :: r2.1, r2.2)
    else ([], nextClick)

/-- One pass of `scheduleClicks` (part_010:111–165), as a function of the
quantities the pass reads: the declared BPM, the playback-rate multiplier,
the `AudioContext` clock `ctxNow`, the audio element's `currentTime`, and
the scheduler's own `nextClickTimeRef`.  It returns the clicks scheduled
during the pass (as `AudioContext` times) and the updated
`nextClickTimeRef`.  The 0.2 s snap to `anchorTarget` is the seek/drift
re-anchoring; the window `ctxNow + 0.1` is `scheduleAheadTime`. -/
def scheduleClicks (bpm playbackRate ctxNow currentAudioTime nextClickTime : ℚ)
    (fuel : ℕ) : List ℚ × ℚ :=
  let secondsPerBeat := 60 / bpm
  let secondsPerBeatScaled := secondsPerBeat / playbackRate
  let scheduleAheadTime : ℚ := 0.1
  let targetCtxTime := anchorTarget bpm playbackRate ctxNow currentAudioTime
  let start := if |nextClickTime - targetCtxTime| > 0.2 then targetCtxTime else nextClickTime
  clickLoop secondsPerBeatScaled (ctxNow + scheduleAheadTime) start fuel

/-! # Theorems -/

/-! ## C4 — the sync loop republishes the audio element's clock -/

/-- C4: while playback is active, every iteration of the per-frame sync
loop publishes exactly the audio element's `currentTime` (read at that
frame) both to the view state and to the parent time-tracking callback;
the published pair is a function of that one clock reading alone, so the
loop never computes elapsed time independently of the audio element. -/
theorem tick_publishes_audio_clock (audio : AudioElement) (h : audio.paused = false) :
    tick (some audio) = some (audio.currentTime, audio.currentTime) := by
  simp [tick, h]

/-- Witness for C4 at a concrete playing element. -/
theorem tick_publishes_audio_clock_witness :
    tick (some { paused := false, currentTime := 7 / 2 }) = some (7 / 2, 7 / 2) :=
  tick_publishes_audio_clock { paused := false, currentTime := 7 / 2 } rfl

/-! ## C7 — oversize uploads are rejected before any network call -/

/-- C7: a selected file whose size exceeds `MAX_FILE_SIZE = 9.5 * 1024 *
1024` bytes makes `handleFileUpload` raise the alert and stop: the file is
never handed to `onAudioReady`, so the analysis pipeline — and with it any
network call — is never invoked, and nothing in the handler retries. -/
theorem handleFileUpload_rejects_oversize (size : ℕ) (rest : List ℕ)
    (h : (size : ℚ) > MAX_FILE_SIZE) :
    handleFileUpload (size :: rest) = some .alertTooLarge ∧
      ∀ s, handleFileUpload (size :: rest) ≠ some (.audioReady s) := by
  refine ⟨by simp [handleFileUpload, h], fun s => by simp [handleFileUpload, h]⟩

/-- Witness for C7: a 9.6 MB file (10 066 330 bytes) is rejected. -/
theorem handleFileUpload_rejects_oversize_witness :
    handleFileUpload [10066330] = some .alertTooLarge :=
  (handleFileUpload_rejects_oversize 10066330 [] (by norm_num [MAX_FILE_SIZE])).1

/-! ## C9 — a metadata decode error resolves the duration as zero -/

/-- C9: when loading the uploaded audio's metadata fails, `getAudioDuration`
resolves with `0` instead of rejecting — indeed it resolves on every event,
so the analysis flow continues with a zero duration instead of aborting. -/
theorem getAudioDuration_resolves_zero_on_error :
    getAudioDuration .error = .ok 0 ∧ ∀ ev, ∃ d, getAudioDuration ev = .ok d := by
  refine ⟨rfl, fun ev => ?_⟩
  cases ev with
  | loadedmetadata d => exact ⟨d, rfl⟩
  | error => exact ⟨0, rfl⟩

/-! ## C6 — three transient failures, then success -/

/-- C6: when the first three attempts fail transiently (messages carrying
503/429/Busy/Overloaded) the retry loop sleeps exactly the backoff delays
2 s, 4 s, 8 s and then returns the fourth attempt's successful result;
retries are capped at `MAX_RETRIES = 3`, so if the fourth attempt fails
too, its error is rethrown to the caller with no further delay. -/
theorem generateWithRetry_transient_then_success (call : ℕ → CallOutcome)
    (m0 m1 m2 : Str)
    (h0 : call 0 = .err m0) (t0 : isTransient m0 = true)
    (h1 : call 1 = .err m1) (t1 : isTransient m1 = true)
    (h2 : call 2 = .err m2) (t2 : isTransient m2 = true) :
    (∀ v, call 3 = .ok v → generateWithRetry call = ([2000, 4000, 8000], .ok v)) ∧
      (∀ m3, call 3 = .err m3 → generateWithRetry call = ([2000, 4000, 8000], .error m3)) := by
  constructor
  · intro v h3
    simp [generateWithRetry, generateWithRetryGo, h0, h1, h2, h3, t0, t1, t2,
      MAX_RETRIES, BASE_DELAY]
  · intro m3 h3
    simp [generateWithRetry, generateWithRetryGo, h0, h1, h2, h3, t0, t1, t2,
      MAX_RETRIES, BASE_DELAY]

/-- Witness for C6 at a concrete outcome sequence. -/
theorem generateWithRetry_transient_then_success_witness :
    generateWithRetry
        (fun i => if i < 3 then .err (str2list "503") else .ok (str2list "done")) =
      ([2000, 4000, 8000], .ok (str2list "done")) :=
  (generateWithRetry_transient_then_success _ _ _ _
      rfl (by decide) rfl (by decide) rfl (by decide)).1 _ rfl

/-! ## C8 — an empty model response fails terminally -/

/-- C8: if the model's response text is empty, the analysis operations
fail with a user-facing error instead of returning a result: `extractJSON`
throws on empty input, `analyzeAudioContent` surfaces that error
(unchanged by the catch block's 404/429 rewrites), `analyzeSongFromUrl`
surfaces it behind its "Link analysis failed: " prefix, and neither ever
returns a value. -/
theorem analyze_fails_on_empty_response (call : ℕ → CallOutcome)
    (h : (generateWithRetry call).2 = .ok []) :
    extractJSON [] = .error (str2list "Empty response from AI") ∧
      analyzeAudioContent call = .error (str2list "Empty response from AI") ∧
      analyzeSongFromUrl call = .error (str2list "Link analysis failed: Empty response from AI") ∧
      (∀ v, analyzeAudioContent call ≠ .ok v) ∧ ∀ v, analyzeSongFromUrl call ≠ .ok v := by
  have hx : extractJSON [] = .error (str2list "Empty response from AI") := rfl
  have ha : analyzeAudioContent call = .error (str2list "Empty response from AI") := by
    unfold analyzeAudioContent
    rw [h]
    rfl
  have hu : analyzeSongFromUrl call =
      .error (str2list "Link analysis failed: Empty response from AI") := by
    unfold analyzeSongFromUrl
    rw [h]
    rfl
  exact ⟨hx, ha, hu, fun v hv => (by rw [ha] at hv; cases hv),
    fun v hv => (by rw [hu] at hv; cases hv)⟩

/-- Witness for C8: a run whose (successful) response has empty text. -/
theorem analyze_fails_on_empty_response_witness :
    analyzeAudioContent (fun _ => .ok []) = .error (str2list "Empty response from AI") :=
  (analyze_fails_on_empty_response (fun _ => .ok []) rfl).2.1

/-! ## C2 — the active-chord lookup -/

/-- Unfolding of the half-open-interval predicate. -/
theorem chordActiveAt_iff (c : ChordEvent) (t : ℚ) :
    chordActiveAt c t = true ↔ c.seconds ≤ t ∧ t < c.seconds + c.duration := by
  simp [chordActiveAt]

/-- With pairwise ordered-disjoint intervals, at most one chord contains a
given time. -/
theorem active_unique_of_pairwise (chords : List ChordEvent) (t : ℚ)
    (hdisj : chords.Pairwise (fun a b => a.seconds + a.duration ≤ b.seconds)) :
    ∀ a ∈ chords, ∀ b ∈ chords,
      chordActiveAt a t = true → chordActiveAt b t = true → a = b := by
  induction chords with
  | nil => intro a ha; cases ha
  | cons hd tl ih =>
    rcases List.pairwise_cons.mp hdisj with ⟨hhd, htl⟩
    intro a ha b hb hat hbt
    rcases List.mem_cons.mp ha with rfl | hatl
    · rcases List.mem_cons.mp hb with rfl | hbtl
      · rfl
      · exfalso
        have h1 := hhd b hbtl
        rw [chordActiveAt_iff] at hat hbt
        linarith [hat.2, hbt.1]
    · rcases List.mem_cons.mp hb with rfl | hbtl
      · exfalso
        have h1 := hhd a hatl
        rw [chordActiveAt_iff] at hat hbt
        linarith [hat.1, hbt.2]
      · exact ih htl a hatl b hbtl hat hbt

/-- With pairwise ordered-disjoint intervals, `find?` returns whichever
chord contains the time. -/
theorem find_active_of_pairwise (chords : List ChordEvent) (t : ℚ)
    (hdisj : chords.Pairwise (fun a b => a.seconds + a.duration ≤ b.seconds)) :
    ∀ c ∈ chords, chordActiveAt c t = true → activeChord chords t = some c := by
  induction chords with
  | nil => intro c hc; cases hc
  | cons hd tl ih =>
    rcases List.pairwise_cons.mp hdisj with ⟨hhd, htl⟩
    intro c hc hct
    by_cases hhdact : chordActiveAt hd t = true
    · have : c = hd :=
        active_unique_of_pairwise (hd :: tl) t hdisj c hc hd (List.mem_cons_self hd tl) hct hhdact
      subst this
      simp [activeChord, List.find?, hhdact]
    · have hcc : c ∈ tl := by
        rcases List.mem_cons.mp hc with rfl | h
        · exact absurd hct hhdact
        · exact h
      have hf : chordActiveAt hd t = false := by simpa using hhdact
      simpa [activeChord, List.find?_cons, hf] using ih htl c hcc hct

/-- C2 (amended): for a chord list with monotonically non-decreasing start
times *and pairwise non-overlapping intervals* (each event ends no later
than any later event starts), the lookup
`chords.find(c => t >= c.seconds && t < c.seconds + c.duration)` returns
`none` when no interval contains `t`, and otherwise the unique event whose
half-open interval contains `t`.  (The non-overlap hypothesis is what the
counterexample below forces: non-decreasing start times alone do not make
the containing event unique.) -/
theorem activeChord_unique_lookup (chords : List ChordEvent) (t : ℚ)
    (hmono : chords.Pairwise (fun a b => a.seconds ≤ b.seconds))
    (hdisj : chords.Pairwise (fun a b => a.seconds + a.duration ≤ b.seconds)) :
    ((∀ c ∈ chords, chordActiveAt c t = false) → activeChord chords t = none) ∧
      ∀ c ∈ chords, chordActiveAt c t = true →
        activeChord chords t = some c ∧
          ∀ c' ∈ chords, chordActiveAt c' t = true → c' = c := by
  refine ⟨fun h => List.find?_eq_none.mpr (fun x hx => by simp [h x hx]), fun c hc hct => ?_⟩
  exact ⟨find_active_of_pairwise chords t hdisj c hc hct,
    fun c' hc' hc't => active_unique_of_pairwise chords t hdisj c' hc' c hc hc't hct⟩

/-- Witness for C2 on a concrete three-chord timeline: a hit inside the
second interval and a miss in the gap after it. -/
theorem activeChord_unique_lookup_witness :
    activeChord [{ seconds := 0, duration := 2 }, { seconds := 2, duration := 3 },
        { seconds := 6, duration := 1 }] (5/2) = some { seconds := 2, duration := 3 } ∧
      activeChord [{ seconds := 0, duration := 2 }, { seconds := 2, duration := 3 },
        { seconds := 6, duration := 1 }] (11/2) = none :=
  ⟨((activeChord_unique_lookup _ (5/2) (by decide) (by decide)).2
      { seconds := 2, duration := 3 } (by decide) (by decide)).1,
    (activeChord_unique_lookup _ (11/2) (by decide) (by decide)).1 (by decide)⟩

/-- Counterexample to C2 as stated: with start times merely non-decreasing
the intervals may overlap, two events can contain the same time, and the
lookup returns the first of them — not "the unique event whose interval
contains the time", which does not exist here.  Events `[0,10)` and
`[5,6)` both contain `t = 5`; `find` answers the first. -/
theorem activeChord_overlap_counterexample :
    ([{ seconds := 0, duration := 10 }, { seconds := 5, duration := 1 }] :
        List ChordEvent).Pairwise (fun a b => a.seconds ≤ b.seconds) ∧
      ({ seconds := 5, duration := 1 } : ChordEvent) ∈
        ([{ seconds := 0, duration := 10 }, { seconds := 5, duration := 1 }] : List ChordEvent) ∧
      chordActiveAt { seconds := 5, duration := 1 } 5 = true ∧
      activeChord [{ seconds := 0, duration := 10 }, { seconds := 5, duration := 1 }] 5 ≠
        some { seconds := 5, duration := 1 } := by
  decide

/-! ## C3 — click-scheduler spacing and re-anchoring -/

/-- The scheduling loop emits an arithmetic progression: starting click,
then one scaled beat more each time, with the final state one beat past
the last click. -/
theorem clickLoop_eq_range (d bound : ℚ) :
    ∀ (fuel : ℕ) (x : ℚ), ∃ n : ℕ,
      clickLoop d bound x fuel =
        ((List.range n).map (fun k : ℕ => x + (k : ℚ) * d), x + (n : ℚ) * d) := by
  intro fuel
  induction fuel with
  | zero => intro x; exact ⟨0, by simp [clickLoop]⟩
  | succ f ih =>
    intro x
    by_cases h : x < bound
    · obtain ⟨n, hn⟩ := ih (x + d)
      refine ⟨n + 1, ?_⟩
      simp only [clickLoop, h, if_pos, hn, Prod.mk.injEq]
      refine ⟨?_, by push_cast; ring⟩
      rw [List.range_succ_eq_map, List.map_cons, List.map_map]
      refine congrArg₂ _ (by simp) ?_
      apply List.map_congr_left
      intro k _
      simp only [Function.comp_apply]
      push_cast
      ring
    · exact ⟨0, by simp [clickLoop, h]⟩

/-- C3 (amended): within one scheduling pass, all scheduled clicks are
spaced by exact multiples of the scaled beat, so no two clicks of a pass
are closer than `60/BPM/playbackRate`; and whenever the scheduler's
predicted next-click time diverges from the audio-derived `anchorTarget`
by more than the 0.2 s tolerance — in particular after a seek — the pass
re-anchors immediately: every click it schedules, and the next-click state
it leaves behind, sit on the beat grid anchored at `anchorTarget`.  (The
original claim's cross-pass minimum-gap guarantee is what the
counterexample below refutes: the re-anchoring snap itself can place a
click closer than one beat to a click of the previous pass.) -/
theorem scheduleClicks_spacing_and_reanchor
    (bpm playbackRate ctxNow currentAudioTime nextClickTime : ℚ) (fuel : ℕ)
    (hb : 0 < bpm) (hr : 0 < playbackRate) :
    (∀ a ∈ (scheduleClicks bpm playbackRate ctxNow currentAudioTime nextClickTime fuel).1,
      ∀ b ∈ (scheduleClicks bpm playbackRate ctxNow currentAudioTime nextClickTime fuel).1,
        a ≠ b → 60 / bpm / playbackRate ≤ |a - b|) ∧
      (|nextClickTime - anchorTarget bpm playbackRate ctxNow currentAudioTime| > 0.2 →
        ∃ n : ℕ,
          (scheduleClicks bpm playbackRate ctxNow currentAudioTime nextClickTime fuel).2 =
              anchorTarget bpm playbackRate ctxNow currentAudioTime +
                (n : ℚ) * (60 / bpm / playbackRate) ∧
            ∀ a ∈ (scheduleClicks bpm playbackRate ctxNow currentAudioTime nextClickTime fuel).1,
              ∃ k : ℕ, a = anchorTarget bpm playbackRate ctxNow currentAudioTime +
                (k : ℚ) * (60 / bpm / playbackRate)) := by
  have hd : (0 : ℚ) < 60 / bpm / playbackRate := by positivity
  set d := 60 / bpm / playbackRate with hdset
  set tgt := anchorTarget bpm playbackRate ctxNow currentAudioTime with htgt
  set start := if |nextClickTime - tgt| > 0.2 then tgt else nextClickTime with hstart
  have hsched : scheduleClicks bpm playbackRate ctxNow currentAudioTime nextClickTime fuel =
      clickLoop d (ctxNow + 0.1) start fuel := by
    simp only [scheduleClicks, hdset, hstart, htgt]
  obtain ⟨n, hn⟩ := clickLoop_eq_range d (ctxNow + 0.1) fuel start
  constructor
  · intro a ha b hb2 hab
    rw [hsched, hn] at ha hb2
    simp only [List.mem_map, List.mem_range] at ha hb2
    obtain ⟨i, hi, rfl⟩ := ha
    obtain ⟨j, hj, rfl⟩ := hb2
    have hij : (i : ℚ) ≠ (j : ℚ) := by
      intro hc
      exact hab (by rw [Nat.cast_injective hc])
    have h1 : (1 : ℚ) ≤ |(i : ℚ) - (j : ℚ)| := by
      have hq : ((i : ℤ) : ℚ) ≠ ((j : ℤ) : ℚ) := by exact_mod_cast hij
      have hz : (i : ℤ) ≠ (j : ℤ) := fun hc => hq (by rw [hc])
      have habs : (1 : ℤ) ≤ |(i : ℤ) - (j : ℤ)| := Int.one_le_abs (sub_ne_zero.mpr hz)
      calc (1 : ℚ) ≤ |((i : ℤ) - (j : ℤ) : ℤ)| := by exact_mod_cast habs
        _ = |(i : ℚ) - (j : ℚ)| := by push_cast; rfl
    have hsub : start + (i : ℚ) * d - (start + (j : ℚ) * d) = ((i : ℚ) - (j : ℚ)) * d := by ring
    rw [hsub, abs_mul, abs_of_pos hd]
    calc d = 1 * d := (one_mul d).symm
      _ ≤ |(i : ℚ) - (j : ℚ)| * d := mul_le_mul_of_nonneg_right h1 (le_of_lt hd)
  · intro hsnap
    have hs : start = tgt := by rw [hstart, if_pos hsnap]
    refine ⟨n, ?_, ?_⟩
    · rw [hsched, hn, hs]
    · intro a ha
      rw [hsched, hn] at ha
      simp only [List.mem_map, List.mem_range] at ha
      obtain ⟨i, hi, rfl⟩ := ha
      exact ⟨i, by rw [hs]⟩

/-- Witness for C3's amended theorem: a pass at 120 BPM whose predicted
next click (10 s) is far from the audio-derived target, so the pass
re-anchors onto the target's beat grid. -/
theorem scheduleClicks_spacing_and_reanchor_witness :
    ∃ n : ℕ, (scheduleClicks 120 1 0 0 10 3).2 =
        anchorTarget 120 1 0 0 + (n : ℚ) * (60 / 120 / 1) ∧
      ∀ a ∈ (scheduleClicks 120 1 0 0 10 3).1,
        ∃ k : ℕ, a = anchorTarget 120 1 0 0 + (k : ℚ) * (60 / 120 / 1) :=
  (scheduleClicks_spacing_and_reanchor 120 1 0 0 10 3 (by decide) (by decide)).2 (by decide)

/-- Counterexample to C3 as stated: two consecutive scheduler passes at 60
BPM (beat = 1 s).  The first pass (context clock 0, audio at 0, next-click
state 0) schedules a click at context time 0 and leaves the next-click
state at 1.  Before the second pass the user seeks: 0.025 s later the
audio element reports 0.999 s, so the pass re-anchors (|1 − 0.026| > 0.2)
and schedules a click at context time 0.026 — only 0.026 s after the
previous pass's click, closer than the claimed minimum gap
`60/BPM/playbackRate = 1 s`. -/
theorem scheduleClicks_seek_gap_counterexample :
    (scheduleClicks 60 1 0 0 0 5).1 = [0] ∧
      (scheduleClicks 60 1 (1/40) (999/1000) ((scheduleClicks 60 1 0 0 0 5).2) 5).1 = [13/500] ∧
      |(13/500 : ℚ) - 0| < 60 / 60 / 1 := by
  decide

/-! ## C5 / C10 — string lemmas for the display layer -/

/-- `trimRight` is Mathlib's `rdropWhile`. -/
theorem trimRight_eq_rdropWhile (s : Str) : trimRight s = s.rdropWhile isWsChar := rfl

theorem trimLeft_length_le (s : Str) : (trimLeft s).length ≤ s.length :=
  List.Sublist.length_le (List.IsSuffix.sublist (List.dropWhile_suffix _))

theorem trimRight_length_le (s : Str) : (trimRight s).length ≤ s.length := by
  rw [trimRight_eq_rdropWhile]
  exact List.Sublist.length_le (List.IsPrefix.sublist (List.rdropWhile_prefix _ _))

theorem trimLeft_of_head_not_ws (c : Char) (rest : Str) (h : isWsChar c = false) :
    trimLeft (c :: rest) = c :: rest := by
  simp [trimLeft, List.dropWhile_cons, h]

theorem trimLeft_head_not_ws (s : Str) (h : trimLeft s ≠ []) :
    isWsChar ((trimLeft s).head h) = false := by
  have := List.head_dropWhile_not isWsChar s (by simpa [trimLeft] using h)
  simpa [trimLeft] using this

theorem trimLeft_trimRight_of_trimLeft (s : Str) :
    trimLeft (trimRight (trimLeft s)) = trimRight (trimLeft s) := by
  rw [trimRight_eq_rdropWhile]
  cases hy : (trimLeft s).rdropWhile isWsChar with
  | nil => rfl
  | cons c rest =>
    have hpre : (trimLeft s).rdropWhile isWsChar <+: trimLeft s :=
      List.rdropWhile_prefix _ _
    rw [hy] at hpre
    have hne : trimLeft s ≠ [] := by
      intro hnil
      rw [hnil] at hpre
      exact absurd (List.prefix_nil.mp hpre) (by simp)
    have hhead : (trimLeft s).head hne = c := by
      have := hpre.head (by simp)
      simpa using this.symm
    have hc : isWsChar c = false := by
      rw [← hhead]
      exact trimLeft_head_not_ws s hne
    exact trimLeft_of_head_not_ws c rest hc

/-- `String.prototype.trim` is idempotent. -/
theorem trim_idempotent (s : Str) : trim (trim s) = trim s := by
  unfold trim
  rw [trimLeft_trimRight_of_trimLeft, trimRight_eq_rdropWhile, trimRight_eq_rdropWhile,
    List.rdropWhile_idempotent]

theorem trimLeft_eq_self_of_trim (s : Str) (h : trim s = s) : trimLeft s = s := by
  have hsuf : trimLeft s <:+ s := List.dropWhile_suffix _
  have hlen : s.length ≤ (trimLeft s).length := by
    conv_lhs => rw [← h]
    exact trimRight_length_le _
  exact List.IsSuffix.eq_of_length hsuf (le_antisymm (List.IsSuffix.length_le hsuf) hlen)

theorem trimRight_eq_self_of_trim (s : Str) (h : trim s = s) : trimRight s = s := by
  have h1 := trimLeft_eq_self_of_trim s h
  rw [trim, h1] at h
  exact h

theorem trimLeft_append (a b : Str) (ha : trimLeft a = a) (hb : trimLeft b = b) :
    trimLeft (a ++ b) = a ++ b := by
  cases a with
  | nil => simpa using hb
  | cons c rest =>
    have hc : isWsChar c = false := by
      by_contra hcc
      rw [Bool.not_eq_false] at hcc
      have hstep : trimLeft (c :: rest) = trimLeft rest := by
        simp [trimLeft, List.dropWhile_cons, hcc]
      rw [hstep] at ha
      have hlen := congrArg List.length ha
      have hle := trimLeft_length_le rest
      simp at hlen
      omega
    exact trimLeft_of_head_not_ws c (rest ++ b) hc

theorem trimRight_append (a b : Str) (ha : trimRight a = a) (hb : trimRight b = b) :
    trimRight (a ++ b) = a ++ b := by
  cases hbe : b with
  | nil => simpa using ha
  | cons c rest =>
    rw [← hbe]
    have hbne : b ≠ [] := by rw [hbe]; simp
    rw [trimRight_eq_rdropWhile, List.rdropWhile_eq_self_iff]
    intro hl
    rw [List.getLast_append_of_ne_nil hbne]
    have := (List.rdropWhile_eq_self_iff).mp
      (by rw [← trimRight_eq_rdropWhile]; exact hb) hbne
    simpa using this

/-- A concatenation of trimmed strings is trimmed. -/
theorem trim_append (a b : Str) (ha : trim a = a) (hb : trim b = b) :
    trim (a ++ b) = a ++ b := by
  have h1 : trimLeft (a ++ b) = a ++ b :=
    trimLeft_append a b (trimLeft_eq_self_of_trim a ha) (trimLeft_eq_self_of_trim b hb)
  rw [trim, h1]
  exact trimRight_append a b (trimRight_eq_self_of_trim a ha) (trimRight_eq_self_of_trim b hb)

/-- The `some` equation of `cleanStr`. -/
theorem cleanStr_some_eq (s : Str) :
    cleanStr (some s) =
      if s = [] then [] else if toLowerStr (trim s) ∈ placeholders then [] else trim s := rfl

/-- `cleanStr` output is trimmed. -/
theorem cleanStr_trimmed (x : Option Str) : trim (cleanStr x) = cleanStr x := by
  cases x with
  | none => rfl
  | some s =>
    rw [cleanStr_some_eq]
    split_ifs with h1 h2
    · rfl
    · rfl
    · exact trim_idempotent s

theorem cleanStr_ne_nil_not_placeholder (x : Option Str) (hne : cleanStr x ≠ []) :
    toLowerStr (cleanStr x) ∉ placeholders := by
  cases x with
  | none => exact absurd rfl hne
  | some s =>
    rw [cleanStr_some_eq] at hne ⊢
    split_ifs at hne ⊢ with h1 h2
    · exact absurd rfl hne
    · exact absurd rfl hne
    · exact h2

/-- `cleanStr` never outputs a placeholder token, in any letter case. -/
theorem cleanStr_not_placeholder (x : Option Str) :
    toLowerStr (cleanStr x) ∉ placeholders := by
  by_cases hne : cleanStr x = []
  · rw [hne]; decide
  · exact cleanStr_ne_nil_not_placeholder x hne

/-- `cleanStr` is idempotent on its own image. -/
theorem cleanStr_image (x : Option Str) : cleanStr (some (cleanStr x)) = cleanStr x := by
  by_cases hne : cleanStr x = []
  · rw [hne]; rfl
  · rw [cleanStr_some_eq, if_neg hne, cleanStr_trimmed,
      if_neg (cleanStr_ne_nil_not_placeholder x hne)]

/-- On `cleanStr`'s image, `normalizeQuality` returns `"m"`, the empty
string, or its input unchanged. -/
theorem normalizeQuality_clean_cases (x : Option Str) :
    normalizeQuality (cleanStr x) = str2list "m" ∨ normalizeQuality (cleanStr x) = [] ∨
      normalizeQuality (cleanStr x) = cleanStr x := by
  by_cases h1 : cleanStr x = str2list "minor" ∨ cleanStr x = str2list "min"
  · left
    unfold normalizeQuality
    rw [if_pos h1]
    decide
  · by_cases h2 : cleanStr x = str2list "major" ∨ cleanStr x = str2list "maj"
    · right; left
      unfold normalizeQuality
      rw [if_neg h1, if_pos h2]
    · right; right
      unfold normalizeQuality
      rw [if_neg h1, if_neg h2]

/-- `normalizeQuality` never outputs a placeholder token on `cleanStr`'s image. -/
theorem normalizeQuality_clean_not_placeholder (x : Option Str) :
    toLowerStr (normalizeQuality (cleanStr x)) ∉ placeholders := by
  rcases normalizeQuality_clean_cases x with h | h | h <;> rw [h]
  · decide
  · decide
  · exact cleanStr_not_placeholder x

/-- `normalizeQuality` output is trimmed on `cleanStr`'s image. -/
theorem normalizeQuality_clean_trimmed (x : Option Str) :
    trim (normalizeQuality (cleanStr x)) = normalizeQuality (cleanStr x) := by
  rcases normalizeQuality_clean_cases x with h | h | h <;> rw [h]
  · decide
  · rfl
  · exact cleanStr_trimmed x

/-- Re-cleaning and re-normalizing a normalized quality changes nothing. -/
theorem normalizeQuality_image (x : Option Str) :
    normalizeQuality (cleanStr (some (normalizeQuality (cleanStr x)))) =
      normalizeQuality (cleanStr x) := by
  rcases normalizeQuality_clean_cases x with h | h | h <;> rw [h]
  · decide
  · decide
  · rw [cleanStr_image, h]

/-- The four components of an already-simplified chord are the original
chord's components. -/
theorem components_simplified (chord : ChordEvent) (level : AnalysisLevel) :
    rootComponent (simplifiedChord chord level) = rootComponent chord ∧
      qualityComponent (simplifiedChord chord level) = qualityComponent chord ∧
      extensionComponent (simplifiedChord chord level) = extensionComponent chord ∧
      bassComponent (simplifiedChord chord level) = bassComponent chord := by
  refine ⟨cleanStr_image chord.root, ?_, cleanStr_image chord.extension, cleanStr_image chord.bass⟩
  exact normalizeQuality_image chord.quality

/-- The fallback of an already-simplified chord is the original fallback. -/
theorem advancedFallback_simplified (chord : ChordEvent) (level : AnalysisLevel) :
    advancedFallback (simplifiedChord chord level) = advancedFallback chord := by
  obtain ⟨h1, h2, h3, h4⟩ := components_simplified chord level
  unfold advancedFallback
  rw [h1, h2, h3, h4]

/-- Every display string `getDisplayChord` produces is trimmed. -/
theorem getDisplayChord_trimmed (chord : ChordEvent) (level : AnalysisLevel) :
    trim (getDisplayChord chord level) = getDisplayChord chord level := by
  have hroot : trim (rootComponent chord) = rootComponent chord := cleanStr_trimmed chord.root
  have hqual : trim (qualityComponent chord) = qualityComponent chord :=
    normalizeQuality_clean_trimmed chord.quality
  have hext : trim (extensionComponent chord) = extensionComponent chord :=
    cleanStr_trimmed chord.extension
  have hbass : trim (bassComponent chord) = bassComponent chord := cleanStr_trimmed chord.bass
  have hfall : trim (advancedFallback chord) = advancedFallback chord := by
    unfold advancedFallback
    refine trim_append _ _ (trim_append _ _ (trim_append _ _ hroot hqual) hext) ?_
    split_ifs with hb
    · show trim (['/'] ++ bassComponent chord) = ['/'] ++ bassComponent chord
      exact trim_append _ _ (by decide) hbass
    · rfl
  cases level with
  | Basic => exact trim_append _ _ hroot hqual
  | Intermediate => exact trim_append _ _ (trim_append _ _ hroot hqual) hext
  | Advanced =>
    have heq : getDisplayChord chord .Advanced =
        if cleanStr chord.symbol ≠ [] ∧ (cleanStr chord.symbol).length < 12 ∧
            containsSub (cleanStr chord.symbol) (str2list "none") = false then
          cleanStr chord.symbol
        else advancedFallback chord := rfl
    rw [heq]
    split_ifs with hc
    · exact cleanStr_trimmed chord.symbol
    · exact hfall

/-- C5: `getDisplayChord` is idempotent per level — formatting a chord
that is already in the simplified form produced for a level returns the
same display string again. -/
theorem getDisplayChord_idempotent (chord : ChordEvent) (level : AnalysisLevel) :
    getDisplayChord (simplifiedChord chord level) level = getDisplayChord chord level := by
  obtain ⟨h1, h2, h3, h4⟩ := components_simplified chord level
  cases level with
  | Basic =>
    show rootComponent _ ++ qualityComponent _ = _
    rw [h1, h2]
    rfl
  | Intermediate =>
    show rootComponent _ ++ qualityComponent _ ++ extensionComponent _ = _
    rw [h1, h2, h3]
    rfl
  | Advanced =>
    have hsymb : (simplifiedChord chord .Advanced).symbol =
        some (getDisplayChord chord .Advanced) := rfl
    by_cases hcond : cleanStr chord.symbol ≠ [] ∧ (cleanStr chord.symbol).length < 12 ∧
        containsSub (cleanStr chord.symbol) (str2list "none") = false
    · -- the source display took the symbol path
      have hD : getDisplayChord chord .Advanced = cleanStr chord.symbol := by
        show (if _ ∧ _ ∧ _ then cleanStr chord.symbol else advancedFallback chord) = _
        rw [if_pos hcond]
      have hclean : cleanStr (simplifiedChord chord .Advanced).symbol = cleanStr chord.symbol := by
        rw [hsymb, hD, cleanStr_image]
      show (if _ ∧ _ ∧ _ then cleanStr (simplifiedChord chord .Advanced).symbol
          else advancedFallback (simplifiedChord chord .Advanced)) = _
      rw [hclean, if_pos hcond, hD]
    · -- the source display took the fallback path
      have hD : getDisplayChord chord .Advanced = advancedFallback chord := by
        show (if _ ∧ _ ∧ _ then cleanStr chord.symbol else advancedFallback chord) = _
        rw [if_neg hcond]
      have hFtrim : trim (advancedFallback chord) = advancedFallback chord := by
        rw [← hD]
        exact getDisplayChord_trimmed chord .Advanced
      have hclean : cleanStr (simplifiedChord chord .Advanced).symbol = [] ∨
          cleanStr (simplifiedChord chord .Advanced).symbol = advancedFallback chord := by
        rw [hsymb, hD, cleanStr_some_eq]
        split_ifs with ha hb
        · exact Or.inl rfl
        · exact Or.inl rfl
        · exact Or.inr hFtrim
      show (if _ ∧ _ ∧ _ then cleanStr (simplifiedChord chord .Advanced).symbol
          else advancedFallback (simplifiedChord chord .Advanced)) = _
      split_ifs with hcond2
      · rcases hclean with hc | hc
        · exact absurd hc hcond2.1
        · rw [hc, hD]
      · rw [advancedFallback_simplified, hD]

/-- C10: `cleanStr` returns the empty string for a missing/empty input
and for any input whose trimmed, lower-cased form is one of the
placeholder tokens none/null/undefined/n-slash-a/nan, and otherwise
returns the trimmed input; consequently none of the root, quality,
extension or bass components `getDisplayChord` interpolates is ever a
placeholder token, in any letter case. -/
theorem cleanStr_spec_and_no_placeholders :
    (cleanStr none = [] ∧ cleanStr (some []) = []) ∧
      (∀ s : Str, toLowerStr (trim s) ∈ placeholders → cleanStr (some s) = []) ∧
      (∀ s : Str, s ≠ [] → toLowerStr (trim s) ∉ placeholders → cleanStr (some s) = trim s) ∧
      ∀ chord : ChordEvent,
        toLowerStr (rootComponent chord) ∉ placeholders ∧
          toLowerStr (qualityComponent chord) ∉ placeholders ∧
          toLowerStr (extensionComponent chord) ∉ placeholders ∧
          toLowerStr (bassComponent chord) ∉ placeholders := by
  refine ⟨⟨rfl, rfl⟩, ?_, ?_, ?_⟩
  · intro s hs
    rw [cleanStr_some_eq]
    split_ifs with h1
    · rfl
    · rfl
  · intro s hne hph
    rw [cleanStr_some_eq, if_neg hne, if_neg hph]
  · intro chord
    exact ⟨cleanStr_not_placeholder chord.root,
      normalizeQuality_clean_not_placeholder chord.quality,
      cleanStr_not_placeholder chord.extension,
      cleanStr_not_placeholder chord.bass⟩

/-- Witness for C10 at concrete inputs: a padded placeholder is dropped, a
padded chord symbol is trimmed, and an upper-case placeholder quality
never reaches the display. -/
theorem cleanStr_spec_and_no_placeholders_witness :
    cleanStr (some (str2list " None ")) = [] ∧
      cleanStr (some (str2list " Cmaj7 ")) = str2list "Cmaj7" ∧
      toLowerStr (qualityComponent
        { quality := some (str2list "NULL"), seconds := 0, duration := 1 }) ∉ placeholders :=
  ⟨cleanStr_spec_and_no_placeholders.2.1 (str2list " None ") (by decide),
    by rw [cleanStr_spec_and_no_placeholders.2.2.1 (str2list " Cmaj7 ") (by decide) (by decide)]; decide,
    (cleanStr_spec_and_no_placeholders.2.2.2
      { quality := some (str2list "NULL"), seconds := 0, duration := 1 }).2.1⟩

/-! ## C1 — extractJSON agrees with parsing the isolated substring -/

theorem idxOf_decomp (c : Char) :
    ∀ (s : Str) (i : ℕ), idxOf c s = some i →
      ∃ pre suf, s = pre ++ c :: suf ∧ pre.length = i ∧ c ∉ pre := by
  intro s
  induction s with
  | nil => intro i h; cases h
  | cons d rest ih =>
    intro i h
    by_cases hd : d = c
    · subst hd
      simp [idxOf] at h
      subst h
      exact ⟨[], rest, by simp, rfl, by simp⟩
    · rw [idxOf, if_neg hd] at h
      cases hrec : idxOf c rest with
      | none => rw [hrec] at h; cases h
      | some i' =>
        rw [hrec] at h
        simp at h
        obtain ⟨pre, suf, hs, hl, hc⟩ := ih i' hrec
        refine ⟨d :: pre, suf, by rw [hs]; rfl, by simp [hl, ← h], ?_⟩
        simp only [List.mem_cons, not_or]
        exact ⟨fun hdc => hd hdc.symm, hc⟩

theorem idxOf_append_cons (c : Char) (a z : Str) (ha : c ∉ a) :
    idxOf c (a ++ c :: z) = some a.length := by
  induction a with
  | nil => simp [idxOf]
  | cons d rest ih =>
    have hdc : ¬(d = c) := fun h => ha (by rw [h]; exact List.mem_cons_self _ _)
    have hrest : c ∉ rest := fun h => ha (List.mem_cons_of_mem _ h)
    rw [List.cons_append, idxOf, if_neg hdc, ih hrest]
    rfl

theorem lastIdxOf_decomp (c : Char) (s : Str) (j : ℕ) (h : lastIdxOf c s = some j) :
    ∃ a post, s = a ++ c :: post ∧ a.length = j ∧ c ∉ post := by
  unfold lastIdxOf at h
  cases hrev : idxOf c s.reverse with
  | none => rw [hrev] at h; cases h
  | some i' =>
    rw [hrev] at h
    simp at h
    obtain ⟨pre, suf, hs, hl, hc⟩ := idxOf_decomp c s.reverse i' hrev
    refine ⟨suf.reverse, pre.reverse, ?_, ?_, by simpa using hc⟩
    · have := congrArg List.reverse hs
      simpa [List.reverse_append] using this
    · have hlen := congrArg List.length hs
      simp at hlen
      rw [List.length_reverse]
      omega

theorem lastIdxOf_append_cons (c : Char) (a z : Str) (hz : c ∉ z) :
    lastIdxOf c (a ++ c :: z) = some a.length := by
  unfold lastIdxOf
  have hrev : (a ++ c :: z).reverse = z.reverse ++ c :: a.reverse := by
    simp [List.reverse_append]
  rw [hrev, idxOf_append_cons c z.reverse a.reverse (by simpa using hz)]
  simp

/-- Isolating the first-`\x7b`-to-last-`\x7d` region of a text that is a
brace-delimited body between brace-free flanks returns exactly the body. -/
theorem isolateBraces_decomp (pre w post : Str)
    (hpre : '\x7b' ∉ pre) (hpost : '\x7d' ∉ post) :
    isolateBraces (pre ++ ('\x7b' :: w ++ ['\x7d']) ++ post) =
      '\x7b' :: w ++ ['\x7d'] := by
  have h1 : idxOf '\x7b' (pre ++ ('\x7b' :: w ++ ['\x7d']) ++ post) = some pre.length := by
    have : pre ++ ('\x7b' :: w ++ ['\x7d']) ++ post =
        pre ++ '\x7b' :: (w ++ '\x7d' :: post) := by simp
    rw [this]
    exact idxOf_append_cons _ _ _ hpre
  have h2 : lastIdxOf '\x7d' (pre ++ ('\x7b' :: w ++ ['\x7d']) ++ post) =
      some (pre.length + w.length + 1) := by
    have : pre ++ ('\x7b' :: w ++ ['\x7d']) ++ post =
        (pre ++ '\x7b' :: w) ++ '\x7d' :: post := by simp
    rw [this, lastIdxOf_append_cons _ _ _ hpost]
    simp
    omega
  unfold isolateBraces
  rw [h1, h2]
  dsimp only
  unfold jsSubstring
  have hmin : min pre.length (pre.length + w.length + 1 + 1) = pre.length := by omega
  have hmax : max pre.length (pre.length + w.length + 1 + 1) = pre.length + w.length + 2 := by
    omega
  rw [hmin, hmax]
  have hsplit : pre ++ ('\x7b' :: w ++ ['\x7d']) ++ post =
      (pre ++ ('\x7b' :: w ++ ['\x7d'])) ++ post := by simp
  rw [hsplit]
  have hlen : (pre ++ ('\x7b' :: w ++ ['\x7d'])).length = pre.length + w.length + 2 := by
    simp
    omega
  rw [List.take_left' hlen]
  have : pre ++ ('\x7b' :: w ++ ['\x7d']) = pre ++ ('\x7b' :: w ++ ['\x7d']) := rfl
  rw [List.drop_left' (rfl : pre.length = pre.length)]

/-- Trimming a text whose middle block neither starts nor ends with
whitespace only erases flank characters. -/
theorem trim_sandwich (pre b post : Str) (c0 cl : Char) (w : Str)
    (hb : b = c0 :: w ++ [cl]) (hhead : isWsChar c0 = false) (hlast : isWsChar cl = false) :
    ∃ pre2 post2, trim (pre ++ b ++ post) = pre2 ++ b ++ post2 ∧
      (∀ x ∈ pre2, x ∈ pre) ∧ ∀ x ∈ post2, x ∈ post := by
  have hleft : trimLeft (pre ++ b ++ post) = pre.dropWhile isWsChar ++ b ++ post := by
    rw [List.append_assoc, trimLeft, List.dropWhile_append]
    split_ifs with hemp
    · rw [List.isEmpty_iff] at hemp
      rw [hemp, List.nil_append]
      show List.dropWhile isWsChar (b ++ post) = b ++ post
      simp [hb, List.dropWhile_cons, hhead]
    · rw [List.append_assoc]
  have hright : trimRight (pre.dropWhile isWsChar ++ b ++ post) =
      pre.dropWhile isWsChar ++ b ++ (post.reverse.dropWhile isWsChar).reverse := by
    rw [trimRight]
    have hrev : (pre.dropWhile isWsChar ++ b ++ post).reverse =
        post.reverse ++ (b.reverse ++ (pre.dropWhile isWsChar).reverse) := by
      simp [List.reverse_append]
    rw [hrev, List.dropWhile_append]
    have hbrev : List.dropWhile isWsChar (b.reverse ++ (pre.dropWhile isWsChar).reverse) =
        b.reverse ++ (pre.dropWhile isWsChar).reverse := by
      have hbr : b.reverse = cl :: (c0 :: w).reverse := by
        rw [hb]
        simp
      simp [hbr, List.dropWhile_cons, hlast]
    split_ifs with hemp
    · rw [hbrev]
      rw [List.isEmpty_iff] at hemp
      rw [hemp]
      simp [List.reverse_append]
    · rw [List.reverse_append, List.reverse_append]
      simp
  refine ⟨pre.dropWhile isWsChar, (post.reverse.dropWhile isWsChar).reverse, ?_, ?_, ?_⟩
  · rw [trim, hleft, hright]
  · intro x hx
    exact List.Sublist.mem hx (List.IsSuffix.sublist (List.dropWhile_suffix _))
  · intro x hx
    rw [List.mem_reverse] at hx
    have := List.Sublist.mem hx (List.IsSuffix.sublist (List.dropWhile_suffix _))
    simpa using this

theorem replaceAllGo_nil (p : Str) (fuel : ℕ) : replaceAllGo p fuel [] = [] := by
  cases fuel <;> rfl

theorem replaceAllGo_congr (p : Str) :
    ∀ (n : ℕ) (s : Str), s.length ≤ n → ∀ f1 f2 : ℕ, s.length ≤ f1 → s.length ≤ f2 →
      replaceAllGo p f1 s = replaceAllGo p f2 s := by
  intro n
  induction n with
  | zero =>
    intro s hs f1 f2 _ _
    have : s = [] := List.length_eq_zero.mp (Nat.le_zero.mp hs)
    subst this
    rw [replaceAllGo_nil, replaceAllGo_nil]
  | succ m ih =>
    intro s hs f1 f2 h1 h2
    cases s with
    | nil => rw [replaceAllGo_nil, replaceAllGo_nil]
    | cons c rest =>
      cases f1 with
      | zero => simp at h1
      | succ g1 =>
        cases f2 with
        | zero => simp at h2
        | succ g2 =>
          simp only [replaceAllGo]
          simp only [List.length_cons, Nat.add_le_add_iff_right] at hs h1 h2
          split_ifs with hcond
          · have hlen : (List.drop (p.length - 1) rest).length ≤ m := by
              simp [List.length_drop]
              omega
            rw [ih _ hlen g1 g2 (by simp [List.length_drop]; omega)
              (by simp [List.length_drop]; omega)]
          · have hlen : rest.length ≤ m := hs
            rw [ih _ hlen g1 g2 h1 h2]

theorem jsReplaceAll_cons_match (p : Str) (c : Char) (rest : Str)
    (h : p.isPrefixOf (c :: rest) = true) (hp : p ≠ []) :
    jsReplaceAll p (c :: rest) = jsReplaceAll p (List.drop (p.length - 1) rest) := by
  have hcond : (p.isPrefixOf (c :: rest) && !p.isEmpty) = true := by
    simp [h, List.isEmpty_iff, hp]
  show replaceAllGo p (rest.length + 1) (c :: rest) = _
  rw [replaceAllGo, if_pos hcond]
  exact replaceAllGo_congr p (List.drop (p.length - 1) rest).length
    (List.drop (p.length - 1) rest) (le_refl _) rest.length
    (List.drop (p.length - 1) rest).length
    (by simp [List.length_drop]) (le_refl _)

theorem jsReplaceAll_cons_nomatch (p : Str) (c : Char) (rest : Str)
    (h : p.isPrefixOf (c :: rest) = false) :
    jsReplaceAll p (c :: rest) = c :: jsReplaceAll p rest := by
  have hcond : (p.isPrefixOf (c :: rest) && !p.isEmpty) = false := by
    simp [h]
  show replaceAllGo p (rest.length + 1) (c :: rest) = _
  rw [replaceAllGo, if_neg (by simp [hcond, h])]
  rfl

theorem jsReplaceAll_nil (p : Str) : jsReplaceAll p [] = [] := rfl

/-- Characters of the pattern's head never occurring in a block lets the
scan pass the block through unchanged. -/
theorem jsReplaceAll_append_skip (p : Str) (p0 : Char) (hp : p.head? = some p0) :
    ∀ (b c : Str), (∀ x ∈ b, x ≠ p0) → jsReplaceAll p (b ++ c) = b ++ jsReplaceAll p c := by
  intro b
  induction b with
  | nil => intro c _; simp
  | cons x restb ih =>
    intro c hb
    have hx : x ≠ p0 := hb x (List.mem_cons_self _ _)
    have hnm : p.isPrefixOf (x :: (restb ++ c)) = false := by
      cases p with
      | nil => cases hp
      | cons q qs =>
        have : q = p0 := by simpa using hp
        subst this
        simp [List.isPrefixOf]
        intro hqx
        exact absurd hqx.symm hx
    rw [List.cons_append, jsReplaceAll_cons_nomatch p x (restb ++ c) hnm,
      ih c (fun y hy => hb y (List.mem_cons_of_mem _ hy)), List.cons_append]

/-- Every character of the scan's output occurs in its input. -/
theorem mem_of_mem_replaceAllGo (p : Str) :
    ∀ (fuel : ℕ) (s : Str) (x : Char), x ∈ replaceAllGo p fuel s → x ∈ s := by
  intro fuel
  induction fuel with
  | zero => intro s x hx; exact hx
  | succ f ih =>
    intro s x hx
    cases s with
    | nil => rw [replaceAllGo_nil] at hx; exact hx
    | cons c rest =>
      simp only [replaceAllGo] at hx
      split_ifs at hx with hcond
      · have := ih _ x hx
        exact List.mem_cons_of_mem _ (List.mem_of_mem_drop this)
      · rcases List.mem_cons.mp hx with rfl | hx2
        · exact List.mem_cons_self _ _
        · exact List.mem_cons_of_mem _ (ih _ x hx2)

theorem mem_of_mem_jsReplaceAll (p s : Str) (x : Char) (hx : x ∈ jsReplaceAll p s) : x ∈ s :=
  mem_of_mem_replaceAllGo p s.length s x hx

/-- Scanning a text whose middle block starts with `\x7b` (a character the
pattern does not contain) and avoids the pattern's first character only
rewrites the flanks: no deletion can start inside or straddle the block. -/
theorem jsReplaceAll_sandwich (p : Str) (p0 : Char) (hp : p.head? = some p0)
    (hbrace : '\x7b' ∉ p) :
    ∀ (a b c : Str), b.head? = some '\x7b' → (∀ x ∈ b, x ≠ p0) →
      jsReplaceAll p (a ++ b ++ c) = jsReplaceAll p a ++ b ++ jsReplaceAll p c := by
  have hpne : p ≠ [] := by
    intro h
    rw [h] at hp
    cases hp
  suffices H : ∀ (n : ℕ) (a b c : Str), a.length ≤ n → b.head? = some '\x7b' →
      (∀ x ∈ b, x ≠ p0) →
      jsReplaceAll p (a ++ b ++ c) = jsReplaceAll p a ++ b ++ jsReplaceAll p c by
    intro a b c hb0 hbp
    exact H a.length a b c (le_refl _) hb0 hbp
  intro n
  induction n with
  | zero =>
    intro a b c ha hb0 hbp
    have : a = [] := List.length_eq_zero.mp (Nat.le_zero.mp ha)
    subst this
    simpa using jsReplaceAll_append_skip p p0 hp b c hbp
  | succ m ih =>
    intro a b c ha hb0 hbp
    cases a with
    | nil =>
      simpa using jsReplaceAll_append_skip p p0 hp b c hbp
    | cons x a' =>
      obtain ⟨b1, hb1⟩ : ∃ b1, b = '\x7b' :: b1 := by
        cases b with
        | nil => cases hb0
        | cons y ys => exact ⟨ys, by simpa using congrArg (fun o => o.elim ('\x7b' :: ys) (· :: ys)) hb0⟩
      by_cases hm : p.isPrefixOf (x :: (a' ++ b ++ c)) = true
      · have hpa : p.length ≤ (x :: a').length := by
          by_contra hgt
          push_neg at hgt
          have hpre : p <+: (x :: a') ++ (b ++ c) := by
            rw [List.isPrefixOf_iff_prefix] at hm
            simpa using hm
          rw [List.prefix_iff_eq_take] at hpre
          rw [List.take_append_eq_append_take] at hpre
          have hk : 1 ≤ p.length - (x :: a').length := by
            simp at hgt ⊢
            omega
          have hbc : b ++ c = '\x7b' :: (b1 ++ c) := by rw [hb1]; rfl
          have : '\x7b' ∈ p := by
            rw [hpre]
            apply List.mem_append_right
            rw [hbc]
            cases hkk : p.length - (x :: a').length with
            | zero => omega
            | succ k =>
              rw [List.take_succ_cons]
              exact List.mem_cons_self _ _
          exact hbrace this
        have hpxa : p.isPrefixOf (x :: a') = true := by
          have hpre : p <+: (x :: a') ++ (b ++ c) := by
            rw [List.isPrefixOf_iff_prefix] at hm
            simpa using hm
          rw [List.prefix_iff_eq_take, List.take_append_of_le_length hpa] at hpre
          rw [List.isPrefixOf_iff_prefix, List.prefix_iff_eq_take]
          exact hpre
        have hLHS : jsReplaceAll p ((x :: a') ++ b ++ c) =
            jsReplaceAll p (List.drop (p.length - 1) a' ++ b ++ c) := by
          rw [List.cons_append, List.cons_append,
            jsReplaceAll_cons_match p x (a' ++ b ++ c) (by simpa using hm) hpne,
            List.drop_append_of_le_length (by simp at hpa ⊢; omega),
            List.drop_append_of_le_length (by simp at hpa ⊢; omega)]
        have hRHS : jsReplaceAll p (x :: a') =
            jsReplaceAll p (List.drop (p.length - 1) a') := by
          cases hpl : p.length with
          | zero => exact absurd (List.length_eq_zero.mp hpl) hpne
          | succ k =>
            rw [jsReplaceAll_cons_match p x a' hpxa hpne, hpl]
        rw [hLHS, hRHS]
        exact ih _ b c (by simp [List.length_drop] at ha ⊢; omega) hb0 hbp
      · rw [Bool.not_eq_true] at hm
        have hmx : p.isPrefixOf (x :: a') = false := by
          by_contra hmt
          rw [Bool.not_eq_false, List.isPrefixOf_iff_prefix] at hmt
          have h3 : p.isPrefixOf (x :: (a' ++ b ++ c)) = true := by
            rw [List.isPrefixOf_iff_prefix]
            have h2 : p <+: (x :: a') ++ (b ++ c) := hmt.trans (List.prefix_append _ _)
            simpa using h2
          rw [hm] at h3
          cases h3
        have h1 : jsReplaceAll p ((x :: a') ++ b ++ c) =
            x :: jsReplaceAll p (a' ++ b ++ c) := by
          rw [List.cons_append, List.cons_append]
          exact jsReplaceAll_cons_nomatch p x (a' ++ b ++ c) (by simpa using hm)
        rw [h1, jsReplaceAll_cons_nomatch p x a' hmx, ih a' b c (by simpa using ha) hb0 hbp]
        simp

theorem extractJSON_of_ne_nil (text : Str) (hne : text ≠ []) :
    extractJSON text =
      match jsonParse (isolateBraces (jsReplaceAll (str2list "```")
          (jsReplaceAll (str2list "```json") (trim text)))) with
      | some v => Except.ok v
      | none =>
        Except.error (str2list "Analysis failed to produce valid JSON data. Please try again.") := by
  unfold extractJSON
  rw [if_neg hne]

/-- C1 (amended): for every response text whose first `\x7b` precedes its
last `\x7d` and whose brace-isolated substring parses as JSON *and
contains no backtick*, `extractJSON` returns exactly the object obtained
by parsing the isolated substring directly — this covers pure JSON, JSON
wrapped in markdown fences, and JSON surrounded by prose.  (The
no-backtick proviso is what the counterexample below forces: the code
strips every ```` ``` ```` before isolating the braces, so a backtick
sequence inside a JSON string value is corrupted.) -/
theorem extractJSON_matches_isolated_parse (text : Str) (i j : ℕ) (v : Json)
    (hi : idxOf '\x7b' text = some i) (hj : lastIdxOf '\x7d' text = some j) (hij : i ≤ j)
    (hbt : '\x60' ∉ isolateBraces text)
    (hv : jsonParse (isolateBraces text) = some v) :
    extractJSON text = Except.ok v := by
  obtain ⟨pre, suf, htext1, hlpre, hpre⟩ := idxOf_decomp '\x7b' text i hi
  obtain ⟨a2, post, htext2, hla, hpost⟩ := lastIdxOf_decomp '\x7d' text j hj
  have hlt : i < j := by
    rcases Nat.lt_or_ge i j with h | h
    · exact h
    · have heq : i = j := le_antisymm hij h
      subst heq
      have hco : pre ++ '\x7b' :: suf = a2 ++ '\x7d' :: post := by rw [← htext1, ← htext2]
      obtain ⟨-, hcons⟩ := List.append_inj hco (by rw [hlpre, hla])
      cases hcons
  -- reconcile the two decompositions into pre ++ ('{' :: w ++ ['}']) ++ post
  have hco : pre ++ '\x7b' :: suf = a2 ++ '\x7d' :: post := by rw [← htext1, ← htext2]
  have hsuf : suf = a2.drop (i + 1) ++ '\x7d' :: post := by
    have hdrop := congrArg (List.drop (i + 1)) hco
    have hl2 : (pre ++ ['\x7b']).length = i + 1 := by simp [hlpre]
    have hassoc : pre ++ '\x7b' :: suf = (pre ++ ['\x7b']) ++ suf := by simp
    rw [hassoc, List.drop_left' hl2,
      List.drop_append_of_le_length (by rw [hla]; omega)] at hdrop
    exact hdrop
  set w := a2.drop (i + 1) with hw
  have htext' : text = pre ++ ('\x7b' :: w ++ ['\x7d']) ++ post := by
    rw [htext1, hsuf]
    simp
  set body : Str := '\x7b' :: w ++ ['\x7d'] with hbody
  have hiso : isolateBraces text = body := by
    rw [htext']
    exact isolateBraces_decomp pre w post hpre hpost
  rw [hiso] at hbt hv
  -- trim only erases flank characters
  obtain ⟨pre2, post2, htrim, hpre2, hpost2⟩ :=
    trim_sandwich pre body post '\x7b' '\x7d' w rfl (by decide) (by decide)
  -- the two fence-stripping passes only rewrite the flanks
  have hbody0 : body.head? = some '\x7b' := rfl
  have hbodybt : ∀ x ∈ body, x ≠ '\x60' := fun x hx hxe => hbt (hxe ▸ hx)
  have hstrip1 := jsReplaceAll_sandwich (str2list "```json") '\x60' (by decide) (by decide)
    pre2 body post2 hbody0 hbodybt
  have hstrip2 := jsReplaceAll_sandwich (str2list "```") '\x60' (by decide) (by decide)
    (jsReplaceAll (str2list "```json") pre2) body (jsReplaceAll (str2list "```json") post2)
    hbody0 hbodybt
  -- the final isolation recovers the body
  have hiso2 : isolateBraces
      (jsReplaceAll (str2list "```") (jsReplaceAll (str2list "```json") pre2) ++ body ++
        jsReplaceAll (str2list "```") (jsReplaceAll (str2list "```json") post2)) = body := by
    apply isolateBraces_decomp
    · intro hx
      exact hpre (hpre2 _ (mem_of_mem_jsReplaceAll _ _ _ (mem_of_mem_jsReplaceAll _ _ _ hx)))
    · intro hx
      exact hpost (hpost2 _ (mem_of_mem_jsReplaceAll _ _ _ (mem_of_mem_jsReplaceAll _ _ _ hx)))
  have hne : text ≠ [] := by
    rw [htext', hbody]
    simp
  have hchain : trim text = pre2 ++ body ++ post2 := by
    rw [htext']
    exact htrim
  rw [extractJSON_of_ne_nil text hne, hchain, hstrip1, hstrip2, hiso2, hv]

/-- Witness for C1 at the specification's own example: fenced JSON yields
the object with key "C Major" and empty chords. -/
theorem extractJSON_matches_isolated_parse_witness :
    extractJSON (str2list "```json\n\x7b\"key\":\"C Major\",\"chords\":[]\x7d\n```") =
      Except.ok (Json.obj [(str2list "key", Json.str (str2list "C Major")),
        (str2list "chords", Json.arr [])]) :=
  extractJSON_matches_isolated_parse _ 8 36 _ (by rfl) (by rfl) (by decide) (by decide) (by rfl)

/-- Counterexample to C1 as stated: the text `{"a":"```"}` contains
exactly one syntactically valid JSON object (the whole text), and parsing
the substring from the first `\x7b` to the last `\x7d` directly yields
the object with `a = "```"`; but `extractJSON` deletes the fence
characters inside the string value first and returns the object with
`a = ""` — a different object. -/
theorem extractJSON_backtick_counterexample :
    jsonParse (isolateBraces (str2list "\x7b\"a\":\"```\"\x7d")) =
        some (Json.obj [(str2list "a", Json.str (str2list "```"))]) ∧
      extractJSON (str2list "\x7b\"a\":\"```\"\x7d") =
        Except.ok (Json.obj [(str2list "a", Json.str [])]) ∧
      Json.obj [(str2list "a", Json.str [])] ≠
        Json.obj [(str2list "a", Json.str (str2list "```"))] := by
  refine ⟨by rfl, by rfl, ?_⟩
  intro h
  have := congrArg (fun j => match j with
    | Json.obj ((_, Json.str s) :: _) => s
    | _ => []) h
  simp at this
  exact absurd this (by decide)
